import Mathlib

/-!
Verification of the Semantic Memory Engine (flat vector store and fractal
index) against its natural-language specification.

The Python sources `src/vector_store.py` and `src/fractal_memory.py` are
shallowly embedded below.  Strings are modelled as `List Char`, floating
point numbers as exact reals, the Ollama embedding provider as a function
`List Char → Option (List ℝ)` (returning `none` on failure), and the
impure inputs of `index` (the content-and-time derived id and the
timestamp) as explicit arguments.  Disk persistence is modelled by the
data written (`SavedStore`), so "no disk write" is `saved = none`.
-/

abbrev Vec := List ℝ

abbrev Provider := List Char → Option Vec

/-! ## Embedding of src/vector_store.py -/

def MAX_TEXT_LENGTH : Nat := 8000

def MAX_ENTRIES : Nat := 10000

/-- Model of `cosine_similarity` (vector_store.py lines 30-39): returns 0.0
on mismatched lengths, 0.0 if either norm is zero, else dot / (‖a‖‖b‖). -/
noncomputable def cosine_similarity (a b : Vec) : ℝ :=
  if a.length ≠ b.length then 0
  else
    let dot := ((a.zip b).map (fun p => p.1 * p.2)).sum
    let norm_a := Real.sqrt ((a.map (fun x => x * x)).sum)
    let norm_b := Real.sqrt ((b.map (fun x => x * x)).sum)
    if norm_a = 0 ∨ norm_b = 0 then 0 else dot / (norm_a * norm_b)

/-- The magnitude (Euclidean norm) of a vector, `math.sqrt(sum(x*x))`. -/
noncomputable def magnitude (v : Vec) : ℝ :=
  Real.sqrt ((v.map (fun x => x * x)).sum)

/-- One stored entry of the flat store (the dict built in `index`). -/
structure StoreEntry where
  id : List Char
  text : List Char
  embedding : Vec
  metadata : List (List Char × List Char)
  timestamp : ℝ
  text_length : Nat

/-- The JSON object written by `_save`: the entries plus a redundant count. -/
structure SavedStore where
  entries : List StoreEntry
  count : Nat

/-- Model of `_save`: the data written to disk. -/
def saveStore (entries : List StoreEntry) : SavedStore :=
  ⟨entries, entries.length⟩

/-- Model of `_load`: reading the persisted file takes its entries array. -/
def loadStore (f : SavedStore) : List StoreEntry :=
  f.entries

/-- Python `not text or not text.strip()`: true iff every char is whitespace
(including the empty string). -/
def isBlank (s : List Char) : Bool :=
  s.all (fun c => c.isWhitespace)

/-- Model of `get_embedding`: the text is truncated to `MAX_TEXT_LENGTH`
before the provider is called; a failure is `none`. -/
def getEmbedding (p : Provider) (text : List Char) : Option Vec :=
  p (text.take MAX_TEXT_LENGTH)

/-- The outcome of one `index` call: the entry list afterwards, the returned
id (or `none` on failure), and the disk write performed (or `none`). -/
structure IndexResult where
  entries : List StoreEntry
  ret : Option (List Char)
  saved : Option SavedStore

/-- Model of `VectorStore.index` (vector_store.py lines 94-121).  Blank text
is rejected; if the store is at capacity the oldest entry is dropped
*before* the provider is called; on provider failure `none` is returned with
no append and no save; on success the new entry is appended and the whole
store is saved. -/
def indexOp (p : Provider) (entries : List StoreEntry) (text : List Char)
    (metadata : List (List Char × List Char)) (newId : List Char) (now : ℝ) :
    IndexResult :=
  if isBlank text then ⟨entries, none, none⟩
  else
    let entries1 := if MAX_ENTRIES ≤ entries.length then entries.drop 1 else entries
    match getEmbedding p text with
    | none => ⟨entries1, none, none⟩
    | some emb =>
      let entry : StoreEntry := ⟨newId, text.take MAX_TEXT_LENGTH, emb, metadata, now, text.length⟩
      ⟨entries1 ++ [entry], some newId, some (saveStore (entries1 ++ [entry]))⟩

/-- One result row of `search`. -/
structure SearchHit where
  id : List Char
  text : List Char
  score : ℝ
  metadata : List (List Char × List Char)
  timestamp : ℝ

/-- Python `round(x, 4)` modelled over exact reals. -/
noncomputable def round4 (x : ℝ) : ℝ :=
  (round (x * 10000) : ℤ) / 10000

/-- Descending comparison by a real-valued key; `insertionSort` with this
relation models Python's stable `sort(key=..., reverse=True)`. -/
def keyRel {α : Type} (f : α → ℝ) : α → α → Prop :=
  fun a b => f b ≤ f a

noncomputable instance keyRelDecidable {α : Type} (f : α → ℝ) :
    DecidableRel (keyRel f) :=
  fun a b => Real.decidableLE (f b) (f a)

instance keyRelTotal {α : Type} (f : α → ℝ) : IsTotal α (keyRel f) :=
  ⟨fun a b => le_total (f b) (f a)⟩

instance keyRelTrans {α : Type} (f : α → ℝ) : IsTrans α (keyRel f) :=
  ⟨fun _ _ _ h1 h2 => le_trans h2 h1⟩

/-- Python `min(max(top_k, 1), 50)`. -/
def clampTopK (k : ℤ) : ℤ :=
  min (max k 1) 50

/-- Model of `VectorStore.search` (vector_store.py lines 123-144): clamp
`top_k` into [1,50], embed the query (failure gives `[]`), score every entry
with a truthy embedding, sort descending by the rounded score (stable), and
return the first `top_k` hits. -/
noncomputable def searchOp (p : Provider) (entries : List StoreEntry)
    (query : List Char) (top_k : ℤ) : List SearchHit :=
  let k := clampTopK top_k
  match getEmbedding p query with
  | none => []
  | some qe =>
    let scored := entries.filterMap (fun e =>
      if e.embedding = [] then none
      else some ⟨e.id, e.text.take 500, round4 (cosine_similarity qe e.embedding),
                 e.metadata, e.timestamp⟩)
    (List.insertionSort (keyRel SearchHit.score) scored).take k.toNat

/-- Store states reachable from the empty store by `index` calls. -/
inductive ReachableStore : List StoreEntry → Prop
  | nil : ReachableStore []
  | step (p : Provider) (es : List StoreEntry) (t : List Char)
      (m : List (List Char × List Char)) (i : List Char) (now : ℝ) :
      ReachableStore es → ReachableStore (indexOp p es t m i now).entries

/-! ## Helper lemmas for the flat store -/

theorem zip_self_map (v : Vec) :
    ((v.zip v).map (fun p => p.1 * p.2)) = v.map (fun x => x * x) := by
  induction v with
  | nil => rfl
  | cons x xs ih => simpa using ih

theorem sumSq_nonneg (v : Vec) : 0 ≤ ((v.map (fun x => x * x)).sum) :=
  List.sum_nonneg (fun x hx => by
    obtain ⟨y, _, rfl⟩ := List.mem_map.mp hx
    exact mul_self_nonneg y)

/-- C9: cosine similarity of a nonzero-magnitude vector with itself is
exactly 1 over exact arithmetic; a zero vector scores 0 against anything on
either side; mismatched lengths score 0 rather than raising. -/
theorem c9_cosine :
    (∀ v : Vec, magnitude v ≠ 0 → cosine_similarity v v = 1) ∧
    (∀ v w : Vec, (∀ x ∈ v, x = 0) →
      cosine_similarity v w = 0 ∧ cosine_similarity w v = 0) ∧
    (∀ v w : Vec, v.length ≠ w.length → cosine_similarity v w = 0) := by
  have hzero : ∀ v : Vec, (∀ x ∈ v, x = 0) → ((v.map (fun x => x * x)).sum) = 0 := by
    intro v hv
    have h1 : v.map (fun x => x * x) = v.map (fun _ => (0:ℝ)) :=
      List.map_congr_left (fun x hx => by rw [hv x hx]; ring)
    rw [h1]
    simp
  refine ⟨?_, ?_, ?_⟩
  · intro v hv
    have hs0 : 0 ≤ ((v.map (fun x => x * x)).sum) := sumSq_nonneg v
    have hsne : ((v.map (fun x => x * x)).sum) ≠ 0 := by
      intro h
      exact hv (by simp [magnitude, h])
    simp only [cosine_similarity, zip_self_map]
    rw [if_neg (by simp)]
    rw [if_neg (by rw [or_self]; exact hv)]
    rw [Real.mul_self_sqrt hs0, div_self hsne]
  · intro v w hv
    constructor
    · by_cases hl : v.length ≠ w.length
      · simp only [cosine_similarity]
        rw [if_pos hl]
      · simp only [cosine_similarity]
        rw [if_neg hl, if_pos (Or.inl (by rw [hzero v hv, Real.sqrt_zero]))]
    · by_cases hl : w.length ≠ v.length
      · simp only [cosine_similarity]
        rw [if_pos hl]
      · simp only [cosine_similarity]
        rw [if_neg hl, if_pos (Or.inr (by rw [hzero v hv, Real.sqrt_zero]))]
  · intro v w h
    simp only [cosine_similarity]
    rw [if_pos h]

/-- Witness for C9 at concrete vectors. -/
theorem c9_cosine_witness :
    magnitude [(1:ℝ)] ≠ 0 ∧ cosine_similarity [(1:ℝ)] [(1:ℝ)] = 1 ∧
    cosine_similarity [(0:ℝ)] [(5:ℝ)] = 0 ∧
    cosine_similarity [(1:ℝ)] [(1:ℝ), (2:ℝ)] = 0 := by
  have h1 : magnitude [(1:ℝ)] ≠ 0 := by
    simp [magnitude]
  refine ⟨h1, c9_cosine.1 [(1:ℝ)] h1,
    (c9_cosine.2.1 [(0:ℝ)] [(5:ℝ)] ?_).1,
    c9_cosine.2.2 [(1:ℝ)] [(1:ℝ), (2:ℝ)] ?_⟩
  · intro x hx
    simpa using hx
  · simp

/-! ## C1: behaviour of `index` on provider failure -/

def sampleEntry : StoreEntry := ⟨[], [], [], [], 0, 0⟩

def fullStore : List StoreEntry := List.replicate MAX_ENTRIES sampleEntry

def pFail : Provider := fun _ => none

def pOne : Provider := fun _ => some [(1:ℝ)]

def sampleText : List Char := ['h', 'i']

/-- C1 counterexample: with the store at capacity and a failing provider,
`index` on non-blank text returns failure but the entry list is *not* the
one from before the call — the oldest entry was evicted before the
embedding call. -/
theorem c1_counterexample :
    isBlank sampleText = false ∧
    getEmbedding pFail sampleText = none ∧
    (indexOp pFail fullStore sampleText [] [] 0).entries ≠ fullStore := by
  have hb : isBlank sampleText = false := by decide
  have hc : MAX_ENTRIES ≤ fullStore.length := by simp [fullStore]
  have hent : (indexOp pFail fullStore sampleText [] [] 0).entries = fullStore.drop 1 := by
    simp [indexOp, hb, hc, getEmbedding, pFail]
  refine ⟨hb, rfl, fun hcon => ?_⟩
  rw [hent] at hcon
  have hfl : fullStore.length = MAX_ENTRIES := by simp [fullStore]
  have hlen2 := congrArg List.length hcon
  rw [List.length_drop, hfl] at hlen2
  simp only [MAX_ENTRIES] at hlen2
  omega

/-- C1 (amended): on provider failure with non-blank text, `index` returns
failure, appends nothing and writes nothing to disk; the entry list is
unchanged when the store was below capacity, but when the store was at
capacity the oldest entry has already been evicted before the provider
call, leaving the list equal to the original minus its first entry. -/
theorem c1_amended (p : Provider) (entries : List StoreEntry) (text : List Char)
    (metadata : List (List Char × List Char)) (newId : List Char) (now : ℝ)
    (hb : isBlank text = false) (hf : getEmbedding p text = none) :
    (indexOp p entries text metadata newId now).ret = none ∧
    (indexOp p entries text metadata newId now).saved = none ∧
    (entries.length < MAX_ENTRIES →
      (indexOp p entries text metadata newId now).entries = entries) ∧
    (MAX_ENTRIES ≤ entries.length →
      (indexOp p entries text metadata newId now).entries = entries.drop 1) := by
  by_cases hc : MAX_ENTRIES ≤ entries.length
  · refine ⟨?_, ?_, ?_, ?_⟩
    · simp [indexOp, hb, hf, hc]
    · simp [indexOp, hb, hf, hc]
    · intro h
      exact absurd hc (by omega)
    · intro _
      simp [indexOp, hb, hf, hc]
  · refine ⟨?_, ?_, ?_, ?_⟩
    · simp [indexOp, hb, hf, hc]
    · simp [indexOp, hb, hf, hc]
    · intro _
      simp [indexOp, hb, hf, hc]
    · intro h
      exact absurd h hc

/-- Witness for C1 (amended) at a concrete below-capacity store. -/
theorem c1_amended_witness :
    isBlank sampleText = false ∧ getEmbedding pFail sampleText = none ∧
    (indexOp pFail [sampleEntry] sampleText [] [] 0).ret = none ∧
    (indexOp pFail [sampleEntry] sampleText [] [] 0).saved = none ∧
    (indexOp pFail [sampleEntry] sampleText [] [] 0).entries = [sampleEntry] := by
  have hb : isBlank sampleText = false := by decide
  have h := c1_amended pFail [sampleEntry] sampleText [] [] 0 hb rfl
  exact ⟨hb, rfl, h.1, h.2.1, h.2.2.1 (by simp [MAX_ENTRIES])⟩

/-! ## C3: capacity invariant and FIFO eviction -/

theorem indexOp_length_le (p : Provider) (entries : List StoreEntry)
    (text : List Char) (metadata : List (List Char × List Char))
    (newId : List Char) (now : ℝ) (h : entries.length ≤ MAX_ENTRIES) :
    (indexOp p entries text metadata newId now).entries.length ≤ MAX_ENTRIES := by
  by_cases hb : isBlank text
  · simpa [indexOp, hb] using h
  · cases hge : getEmbedding p text with
    | none =>
      by_cases hc : MAX_ENTRIES ≤ entries.length
      · have he : (indexOp p entries text metadata newId now).entries = entries.drop 1 := by
          simp [indexOp, hb, hge, hc]
        rw [he, List.length_drop]
        exact le_trans (Nat.sub_le _ _) h
      · have he : (indexOp p entries text metadata newId now).entries = entries := by
          simp [indexOp, hb, hge, hc]
        rw [he]
        exact h
    | some emb =>
      by_cases hc : MAX_ENTRIES ≤ entries.length
      · have he : (indexOp p entries text metadata newId now).entries
            = entries.drop 1 ++ [⟨newId, text.take MAX_TEXT_LENGTH, emb, metadata, now, text.length⟩] := by
          simp [indexOp, hb, hge, hc]
        rw [he]
        simp only [List.length_append, List.length_drop, List.length_cons, List.length_nil]
        simp only [MAX_ENTRIES] at hc h ⊢
        omega
      · have he : (indexOp p entries text metadata newId now).entries
            = entries ++ [⟨newId, text.take MAX_TEXT_LENGTH, emb, metadata, now, text.length⟩] := by
          simp [indexOp, hb, hge, hc]
        rw [he]
        simp only [List.length_append, List.length_cons, List.length_nil]
        simp only [MAX_ENTRIES] at hc h ⊢
        omega

/-- C3: starting from the empty store, after any finite sequence of `index`
calls the store never holds more than `MAX_ENTRIES` entries; and whenever a
successful insertion happens with the store at capacity, exactly one entry
is removed, namely the oldest (`entries[0]`), before the new entry is
appended at the end. -/
theorem c3_capacity :
    (∀ es, ReachableStore es → es.length ≤ MAX_ENTRIES) ∧
    (∀ (p : Provider) (es : List StoreEntry) (t : List Char)
        (m : List (List Char × List Char)) (i : List Char) (now : ℝ) (emb : Vec),
        MAX_ENTRIES ≤ es.length → isBlank t = false → getEmbedding p t = some emb →
        (indexOp p es t m i now).entries
          = es.drop 1 ++ [⟨i, t.take MAX_TEXT_LENGTH, emb, m, now, t.length⟩]) := by
  constructor
  · intro es h
    induction h with
    | nil => simp
    | step p es t m i now _ ih => exact indexOp_length_le p es t m i now ih
  · intro p es t m i now emb hc hb hemb
    simp [indexOp, hb, hemb, hc]

/-- Witness for C3 at the empty store and at a concrete full store. -/
theorem c3_capacity_witness :
    ([] : List StoreEntry).length ≤ MAX_ENTRIES ∧
    (indexOp pOne fullStore sampleText [] [] 0).entries
      = fullStore.drop 1
        ++ [⟨[], sampleText.take MAX_TEXT_LENGTH, [(1:ℝ)], [], 0, sampleText.length⟩] :=
  ⟨c3_capacity.1 [] ReachableStore.nil,
   c3_capacity.2 pOne fullStore sampleText [] [] 0 [(1:ℝ)]
     (by simp [fullStore]) (by decide) rfl⟩

/-! ## C7: persist-then-reload round trip -/

/-- C7: for every store state reached by `index` calls, reloading the
persisted file reproduces the entry list exactly, so `search` with the same
provider, query and `k` returns exactly the same result list. -/
theorem c7_roundtrip (p : Provider) (es : List StoreEntry)
    (_hr : ReachableStore es) (q : List Char) (k : ℤ) :
    loadStore (saveStore es) = es ∧
    searchOp p (loadStore (saveStore es)) q k = searchOp p es q k :=
  ⟨rfl, rfl⟩

/-- Witness for C7 at the empty (reachable) store. -/
theorem c7_roundtrip_witness :
    loadStore (saveStore []) = [] ∧
    searchOp pFail (loadStore (saveStore [])) [] 3 = searchOp pFail [] [] 3 :=
  c7_roundtrip pFail [] ReachableStore.nil [] 3

/-! ## C8: search contract -/

/-- C8: `search` clamps `top_k` into [1,50]; a provider failure on the
query yields the empty list rather than an error; the result is sorted by
non-increasing score and holds at most the clamped `top_k` elements. -/
theorem c8_search_contract (p : Provider) (entries : List StoreEntry)
    (q : List Char) (k : ℤ) :
    1 ≤ clampTopK k ∧ clampTopK k ≤ 50 ∧
    (getEmbedding p q = none → searchOp p entries q k = []) ∧
    List.Sorted (fun a b : SearchHit => b.score ≤ a.score) (searchOp p entries q k) ∧
    (searchOp p entries q k).length ≤ (clampTopK k).toNat := by
  refine ⟨?_, ?_, ?_, ?_, ?_⟩
  · exact le_min (le_max_right k 1) (by norm_num)
  · exact min_le_right _ _
  · intro h
    simp [searchOp, h]
  · cases hq : getEmbedding p q with
    | none => simp [searchOp, hq]
    | some qe =>
      simp only [searchOp, hq]
      exact List.Pairwise.sublist (List.take_sublist _ _)
        (List.sorted_insertionSort (keyRel SearchHit.score) _)
  · cases hq : getEmbedding p q with
    | none => simp [searchOp, hq]
    | some qe =>
      simp only [searchOp, hq]
      exact List.length_take_le _ _

/-- Witness for C8 at a failing provider and concrete arguments. -/
theorem c8_search_contract_witness :
    searchOp pFail [sampleEntry] sampleText 7 = [] ∧
    1 ≤ clampTopK 7 ∧ clampTopK 7 ≤ 50 :=
  ⟨(c8_search_contract pFail [sampleEntry] sampleText 7).2.2.1 rfl,
   (c8_search_contract pFail [sampleEntry] sampleText 7).1,
   (c8_search_contract pFail [sampleEntry] sampleText 7).2.1⟩

/-! ## Embedding of src/fractal_memory.py -/

def FIBONACCI_SIZES : List Nat := [987, 610, 377, 233, 144]

def FIBONACCI_OVERLAPS : List Nat := [89, 61, 37, 23, 14]

def sizeAt (L : Nat) : Nat := FIBONACCI_SIZES.getD L 0

def overlapAt (L : Nat) : Nat := FIBONACCI_OVERLAPS.getD L 0

/-- A node of the fractal tree (`FractalNode.__init__`): level (−1 for the
synthetic root), the span text, [start, stop) offsets, optional embedding
and centroid (both `None` at construction), and the ordered children. -/
inductive FractalNode : Type where
  | mk (level : Int) (text : List Char) (start : Nat) (stop : Nat)
      (embedding : Option Vec) (centroid : Option Vec)
      (children : List FractalNode)

instance : Inhabited FractalNode := ⟨.mk 0 [] 0 0 none none []⟩

@[simp] def FractalNode.level : FractalNode → Int
  | .mk l _ _ _ _ _ _ => l

@[simp] def FractalNode.text : FractalNode → List Char
  | .mk _ t _ _ _ _ _ => t

@[simp] def FractalNode.start : FractalNode → Nat
  | .mk _ _ s _ _ _ _ => s

@[simp] def FractalNode.stop : FractalNode → Nat
  | .mk _ _ _ e _ _ _ => e

@[simp] def FractalNode.embedding : FractalNode → Option Vec
  | .mk _ _ _ _ emb _ _ => emb

@[simp] def FractalNode.centroid : FractalNode → Option Vec
  | .mk _ _ _ _ _ cen _ => cen

@[simp] def FractalNode.children : FractalNode → List FractalNode
  | .mk _ _ _ _ _ _ ch => ch

theorem sizeOf_children_lt (n : FractalNode) {c : FractalNode}
    (hc : c ∈ n.children) : sizeOf c < sizeOf n := by
  cases n with
  | mk l t s e emb cen ch =>
    simp only [FractalNode.children] at hc
    have h1 := List.sizeOf_lt_of_mem hc
    simp only [FractalNode.mk.sizeOf_spec]
    omega

/-- All nodes of a subtree, the node first (pre-order). -/
def treeNodes : FractalNode → List FractalNode
  | n => n :: (n.children.attach.map (fun c => treeNodes c.1)).flatten
termination_by n => sizeOf n
decreasing_by exact sizeOf_children_lt n c.2

theorem treeNodes_eq (n : FractalNode) :
    treeNodes n = n :: (n.children.map treeNodes).flatten := by
  rw [treeNodes]
  congr 1
  rw [List.map_attach]
  simp

theorem self_mem_treeNodes (n : FractalNode) : n ∈ treeNodes n := by
  rw [treeNodes_eq]
  exact List.mem_cons_self _ _

theorem mem_treeNodes_trans {m c n : FractalNode} (hc : c ∈ n.children)
    (hm : m ∈ treeNodes c) : m ∈ treeNodes n := by
  rw [treeNodes_eq]
  exact List.mem_cons_of_mem _
    (List.mem_flatten.mpr ⟨treeNodes c, List.mem_map_of_mem _ hc, hm⟩)

theorem mem_treeNodes_cases {m n : FractalNode} (h : m ∈ treeNodes n) :
    m = n ∨ ∃ c ∈ n.children, m ∈ treeNodes c := by
  rw [treeNodes_eq] at h
  rcases List.mem_cons.mp h with h1 | h1
  · exact Or.inl h1
  · obtain ⟨l, hl, hml⟩ := List.mem_flatten.mp h1
    obtain ⟨c, hcn, rfl⟩ := List.mem_map.mp hl
    exact Or.inr ⟨c, hcn, hml⟩

/-- Model of `get_leaves` (fractal_memory.py lines 103-110). -/
def get_leaves : FractalNode → List FractalNode
  | n =>
    if n.children.isEmpty then [n]
    else (n.children.attach.map (fun c => get_leaves c.1)).flatten
termination_by n => sizeOf n
decreasing_by exact sizeOf_children_lt n c.2

theorem get_leaves_leaf {n : FractalNode} (h : n.children = []) :
    get_leaves n = [n] := by
  rw [get_leaves, if_pos (by rw [h]; rfl)]

theorem get_leaves_node {n : FractalNode} (h : n.children ≠ []) :
    get_leaves n = (n.children.map get_leaves).flatten := by
  rw [get_leaves, if_neg (by simpa using h)]
  congr 1
  rw [List.map_attach]
  simp

/-- The loop of `chunk_text`: starting at offset `i`, emit the window
`text[i:end]` with `end = min(i+size, len)` and advance by `step` until a
window reaches the end of the text.  `text[i:end]` is `(s.drop i).take size`
since `end - i = min size (len - i)`. -/
def chunksAux (s : List Char) (size step : Nat) (hstep : 1 ≤ step) (i : Nat) :
    List (Nat × Nat × List Char) :=
  if h : i < s.length then
    if s.length ≤ i + size then
      [(i, min (i + size) s.length, (s.drop i).take size)]
    else
      (i, min (i + size) s.length, (s.drop i).take size)
        :: chunksAux s size step hstep (i + step)
  else []
termination_by s.length - i
decreasing_by omega

/-- Model of `chunk_text` (fractal_memory.py lines 46-57): sliding windows
of `size` characters advancing by `max(size - ov, 1)`. -/
def chunk_text (s : List Char) (size ov : Nat) : List (Nat × Nat × List Char) :=
  if s = [] then []
  else chunksAux s size (max (size - ov) 1) (le_max_right _ _) 0

/-- Model of the inner `build_level` of `build_fractal_tree` (lines 78-97):
chunk the parent text at this level's size/overlap and recurse one level
down for every chunk, stopping below level 4. -/
def buildLevel (s : List Char) (pstart : Nat) (L : Nat) : List FractalNode :=
  if h5 : 5 ≤ L then []
  else
    (chunk_text s (sizeAt L) (overlapAt L)).map (fun c =>
      FractalNode.mk (L : Int) c.2.2 (pstart + c.1) (pstart + c.2.1) none none
        (if h4 : L < 4 then buildLevel c.2.2 (pstart + c.1) (L + 1) else []))
termination_by 5 - L
decreasing_by omega

/-- Model of `build_fractal_tree` (lines 60-100): empty text gives `None`;
text shorter than the smallest window (144) gives a single level-0 leaf;
otherwise a synthetic level −1 root whose children are the level-0 chunks. -/
def buildFractalTree (text : List Char) : Option FractalNode :=
  if text = [] then none
  else if text.length < 144 then
    some (FractalNode.mk 0 text 0 text.length none none [])
  else some (FractalNode.mk (-1) [] 0 text.length none none (buildLevel text 0 0))

/-- The root actually built from non-empty text (used to state concrete
facts without an existential). -/
def rootOf (text : List Char) : FractalNode :=
  (buildFractalTree text).getD default

theorem buildFractalTree_eq_rootOf {text : List Char} (h : text ≠ []) :
    buildFractalTree text = some (rootOf text) := by
  rw [rootOf, buildFractalTree]
  rw [if_neg h]
  by_cases h2 : text.length < 144
  · rw [if_pos h2]
    rfl
  · rw [if_neg h2]
    rfl

/-! ## Embedding pass and centroids -/

/-- Python truthiness of an optional vector: `None` and `[]` are falsy. -/
def pyTruthy : Option Vec → Bool
  | some (_ :: _) => true
  | _ => false

/-- The `child_embs` collection of `embed_tree` (lines 147-152): each child
contributes its embedding if truthy, elif its centroid if truthy. -/
def eligVecs (children : List FractalNode) : List Vec :=
  children.filterMap (fun c =>
    if pyTruthy c.embedding then c.embedding
    else if pyTruthy c.centroid then c.centroid else none)

/-- The accumulation loop of `compute_centroid`: add `emb` into `acc` on
the first `min (acc.length) (emb.length)` coordinates, keeping the rest of
`acc` unchanged. -/
def addInto (acc emb : Vec) : Vec :=
  (List.zipWith (· + ·) acc emb) ++ acc.drop emb.length

/-- Model of `compute_centroid` (lines 113-123): `None` on an empty input,
else sums into a zero vector sized by the first embedding and divides by
the number of embeddings. -/
noncomputable def compute_centroid (embeddings : List Vec) : Option Vec :=
  match embeddings with
  | [] => none
  | e0 :: _ =>
    some ((embeddings.foldl addInto (List.replicate e0.length (0:ℝ))).map
      (fun c => c / (embeddings.length : ℝ)))

/-- Model of the inner `embed_node` of `embed_tree` (lines 131-153): a leaf
whose text is truthy and at least 10 chars long stores the provider result
(possibly `None`) as its embedding, counting 1 only if the result is
truthy; an internal node embeds its children first and then stores
`compute_centroid` of the children's truthy embeddings-or-centroids. -/
noncomputable def embedNode (p : Provider) : FractalNode → FractalNode × Nat
  | .mk l t s e emb cen ch =>
    match ch with
    | [] =>
      if t ≠ [] ∧ 10 ≤ t.length then
        (FractalNode.mk l t s e (getEmbedding p t) cen [],
         if pyTruthy (getEmbedding p t) then 1 else 0)
      else (FractalNode.mk l t s e emb cen [], 0)
    | c0 :: rest =>
      let rs := (c0 :: rest).attach.map (fun c => embedNode p c.1)
      let newCh := rs.map Prod.fst
      (FractalNode.mk l t s e emb (compute_centroid (eligVecs newCh)) newCh,
       (rs.map Prod.snd).sum)
termination_by n => sizeOf n
decreasing_by
  have h1 := List.sizeOf_lt_of_mem c.2
  simp only [FractalNode.mk.sizeOf_spec]
  omega

/-- Model of `embed_tree` (lines 126-158): embeds each child subtree of the
root and sums the counts; the root's own fields (in particular its
embedding and centroid) are left untouched. -/
noncomputable def embedTree (p : Provider) (root : FractalNode) : FractalNode × Nat :=
  match root with
  | .mk l t s e emb cen ch =>
    (FractalNode.mk l t s e emb cen ((ch.map (embedNode p)).map Prod.fst),
     ((ch.map (embedNode p)).map Prod.snd).sum)

/-! ## Spec-side definitions for centroids (refinement targets) -/

/-- From the spec's words: each child contributes its embedding if present,
else its centroid if present, else is excluded. -/
def specElig (children : List FractalNode) : List Vec :=
  children.filterMap (fun c =>
    match c.embedding with
    | some v => some v
    | none => c.centroid)

/-- From the spec's words: the elementwise arithmetic mean of a list of
(equal-length) vectors. -/
noncomputable def elementwiseMean (vs : List Vec) : Vec :=
  (vs.foldl (fun acc v => List.zipWith (· + ·) acc v)
      (List.replicate (vs.headD []).length (0:ℝ))).map
    (fun c => c / (vs.length : ℝ))

/-- From the spec's words: an internal node's centroid is the elementwise
mean of its eligible children's vectors, absent when no child is eligible. -/
noncomputable def centroidSpec (children : List FractalNode) : Option Vec :=
  match specElig children with
  | [] => none
  | v :: vs => some (elementwiseMean (v :: vs))

/-! ## Beam search -/

/-- One emitted beam-search result row. -/
structure BeamResult where
  text : List Char
  score : ℝ
  level : Int
  start : Nat
  stop : Nat

/-- Scoring rule of `beam_search` (lines 182-188): take
`node.centroid or node.embedding` with Python truthiness, score by cosine
similarity when truthy, else 0.0. -/
noncomputable def codeScore (q : Vec) (n : FractalNode) : ℝ :=
  match (if pyTruthy n.centroid then n.centroid else n.embedding) with
  | some (x :: xs) => cosine_similarity q (x :: xs)
  | _ => 0

/-- From the spec's words: score an internal node by its centroid and a
leaf by its embedding, 0.0 for a node lacking it. -/
noncomputable def specScore (q : Vec) (n : FractalNode) : ℝ :=
  if n.children.isEmpty then
    match n.embedding with
    | some (x :: xs) => cosine_similarity q (x :: xs)
    | _ => 0
  else
    match n.centroid with
    | some (x :: xs) => cosine_similarity q (x :: xs)
    | _ => 0

/-- One round's kept nodes: score the beam, sort descending (stably), keep
the first `beam_width`. -/
noncomputable def topOf (score : FractalNode → ℝ) (bw : Nat)
    (beam : List FractalNode) : List (ℝ × FractalNode) :=
  (List.insertionSort (keyRel Prod.fst) (beam.map (fun n => (score n, n)))).take bw

/-- Results emitted for kept leaves (lines 195-204). -/
noncomputable def leavesOut (top : List (ℝ × FractalNode)) : List BeamResult :=
  top.filterMap (fun sn =>
    if sn.2.children.isEmpty then
      some ⟨sn.2.text, round4 sn.1, sn.2.level, sn.2.start, sn.2.stop⟩
    else none)

/-- The next beam: children of the kept nodes, in order (line 206). -/
def nextOf (top : List (ℝ × FractalNode)) : List FractalNode :=
  (top.map (fun sn => sn.2.children)).flatten

/-- Results emitted for kept internal nodes when the beam would die out
(lines 208-219), with a 500-char text preview. -/
noncomputable def stuckOut (top : List (ℝ × FractalNode)) : List BeamResult :=
  top.filterMap (fun sn =>
    if sn.2.children.isEmpty then none
    else some ⟨sn.2.text.take 500, round4 sn.1, sn.2.level, sn.2.start, sn.2.stop⟩)

theorem sum_map_sizeOf_lt (l : List FractalNode) : ((l.map sizeOf).sum) < sizeOf l := by
  induction l with
  | nil => simp
  | cons a l ih =>
    simp only [List.map_cons, List.sum_cons, List.cons.sizeOf_spec]
    omega

theorem children_measure_lt (n : FractalNode) :
    ((n.children.map sizeOf).sum) < sizeOf n := by
  refine lt_trans (sum_map_sizeOf_lt _) ?_
  cases n with
  | mk l t s e emb cen ch =>
    simp only [FractalNode.children, FractalNode.mk.sizeOf_spec]
    omega

theorem nextOf_measure_le (l : List (ℝ × FractalNode)) :
    ((nextOf l).map sizeOf).sum ≤ (l.map (fun sn => sizeOf sn.2)).sum := by
  induction l with
  | nil => simp [nextOf]
  | cons a l ih =>
    simp only [nextOf, List.map_cons, List.flatten_cons, List.map_append,
      List.sum_append, List.sum_cons] at *
    have h1 := le_of_lt (children_measure_lt a.2)
    omega

theorem nextOf_measure_lt (l : List (ℝ × FractalNode)) (h : l ≠ []) :
    ((nextOf l).map sizeOf).sum < (l.map (fun sn => sizeOf sn.2)).sum := by
  cases l with
  | nil => exact absurd rfl h
  | cons a l =>
    simp only [nextOf, List.map_cons, List.flatten_cons, List.map_append,
      List.sum_append, List.sum_cons]
    have h1 := children_measure_lt a.2
    have h2 := nextOf_measure_le l
    simp only [nextOf] at h2
    omega

theorem topOf_measure_le (score : FractalNode → ℝ) (bw : Nat)
    (beam : List FractalNode) :
    ((topOf score bw beam).map (fun sn => sizeOf sn.2)).sum ≤ (beam.map sizeOf).sum := by
  have hperm : (List.insertionSort (keyRel Prod.fst)
      (beam.map (fun n => (score n, n)))).Perm (beam.map (fun n => (score n, n))) :=
    List.perm_insertionSort _ _
  have hsub : ((topOf score bw beam).map (fun sn => sizeOf sn.2)).Sublist
      ((List.insertionSort (keyRel Prod.fst)
        (beam.map (fun n => (score n, n)))).map (fun sn => sizeOf sn.2)) :=
    (List.take_sublist _ _).map _
  refine le_trans (List.Sublist.sum_le_sum hsub (fun x _ => Nat.zero_le x)) ?_
  rw [(hperm.map (fun sn => sizeOf sn.2)).sum_eq]
  rw [List.map_map]
  rfl

theorem measure_next_lt (score : FractalNode → ℝ) (bw : Nat)
    (beam : List FractalNode) (h : nextOf (topOf score bw beam) ≠ []) :
    ((nextOf (topOf score bw beam)).map sizeOf).sum < (beam.map sizeOf).sum := by
  have htop : topOf score bw beam ≠ [] := by
    intro hcon
    rw [hcon] at h
    exact h rfl
  exact lt_of_lt_of_le (nextOf_measure_lt _ htop) (topOf_measure_le score bw beam)

/-- The main loop of `beam_search` (lines 180-221), parametric in the
scoring rule.  Each round keeps the `bw` best-scoring nodes, emits kept
leaves, descends into kept internal nodes, and emits kept internal nodes
with a text preview when the next beam would be empty. -/
noncomputable def beamLoop (score : FractalNode → ℝ) (bw : Nat)
    (beam : List FractalNode) (acc : List BeamResult) : List BeamResult :=
  if beam.isEmpty then acc
  else
    if (nextOf (topOf score bw beam)).isEmpty then
      acc ++ leavesOut (topOf score bw beam) ++ stuckOut (topOf score bw beam)
    else beamLoop score bw (nextOf (topOf score bw beam)) (acc ++ leavesOut (topOf score bw beam))
termination_by (beam.map sizeOf).sum
decreasing_by
  rename_i hne
  refine measure_next_lt score bw beam (fun hcon => ?_)
  rw [hcon] at hne
  exact hne rfl

/-- Model of `beam_search` (lines 161-224): a childless root is answered
from its own embedding if truthy; otherwise run the loop from the root's
children, then sort all emitted results descending and keep `top_k`. -/
noncomputable def beam_search (root : FractalNode) (q : Vec) (bw tk : Nat) :
    List BeamResult :=
  if root.children.isEmpty then
    match root.embedding with
    | some (x :: xs) =>
      [⟨root.text, round4 (cosine_similarity q (x :: xs)), root.level, root.start, root.stop⟩]
    | _ => []
  else
    (List.insertionSort (keyRel BeamResult.score)
      (beamLoop (codeScore q) bw root.children [])).take tk

/-- From the spec's words: the beam starts as the root's immediate
children; rounds proceed as described; all emitted results are merged,
sorted descending by score, and the top `top_k` are returned. -/
noncomputable def beam_search_spec (root : FractalNode) (q : Vec) (bw tk : Nat) :
    List BeamResult :=
  (List.insertionSort (keyRel BeamResult.score)
    (beamLoop (specScore q) bw root.children [])).take tk

/-! ## Window characterization of chunk_text -/

theorem chunksAux_windows (s : List Char) (size step : Nat) (hstep : 1 ≤ step)
    (hss : step ≤ size) :
    ∀ (d i : Nat), s.length - i ≤ d → i < s.length →
    ∃ m, chunksAux s size step hstep i
        = (List.range (m + 1)).map (fun k =>
            (i + k * step, min (i + k * step + size) s.length,
             (s.drop (i + k * step)).take size))
      ∧ (∀ k < m, i + k * step + size < s.length)
      ∧ s.length ≤ i + m * step + size
      ∧ (∀ k ≤ m, i + k * step < s.length) := by
  intro d
  induction d with
  | zero =>
    intro i h1 h2
    omega
  | succ d ih =>
    intro i h1 h2
    rw [chunksAux, dif_pos h2]
    by_cases hend : s.length ≤ i + size
    · rw [if_pos hend]
      refine ⟨0, ?_, ?_, ?_, ?_⟩
      · simp [List.range_succ]
      · intro k hk
        omega
      · simpa using hend
      · intro k hk
        have hk0 : k = 0 := by omega
        subst hk0
        simpa using h2
    · rw [if_neg hend]
      have h3 : i + step < s.length := by omega
      obtain ⟨m', heq, hlt, hle, hpos⟩ := ih (i + step) (by omega) h3
      refine ⟨m' + 1, ?_, ?_, ?_, ?_⟩
      · rw [heq]
        conv_rhs => rw [List.range_succ_eq_map]
        rw [List.map_cons, List.map_map]
        congr 1
        · simp
        · refine List.map_congr_left (fun k hk => ?_)
          have e1 : i + Nat.succ k * step = i + step + k * step := by
            rw [Nat.succ_mul]
            omega
          simp only [Function.comp_apply, e1]
      · intro k hk
        match k with
        | 0 =>
          simpa using (by omega : i + size < s.length)
        | (j + 1) =>
          have h4 := hlt j (by omega)
          rw [Nat.succ_mul]
          omega
      · rw [Nat.succ_mul]
        omega
      · intro k hk
        match k with
        | 0 => simpa using h2
        | (j + 1) =>
          have h4 := hpos j (by omega)
          rw [Nat.succ_mul]
          omega

theorem chunk_text_windows (s : List Char) (size ov : Nat) (hs : s ≠ [])
    (hov : ov < size) :
    ∃ m, chunk_text s size ov
        = (List.range (m + 1)).map (fun k =>
            (k * (size - ov), min (k * (size - ov) + size) s.length,
             (s.drop (k * (size - ov))).take size))
      ∧ (∀ k < m, k * (size - ov) + size < s.length)
      ∧ s.length ≤ m * (size - ov) + size
      ∧ (∀ k ≤ m, k * (size - ov) < s.length) := by
  have hstep : max (size - ov) 1 = size - ov := by omega
  have hlen : 0 < s.length := List.length_pos.mpr hs
  obtain ⟨m, heq, h1, h2, h3⟩ :=
    chunksAux_windows s size (max (size - ov) 1) (le_max_right _ _)
      (by omega) s.length 0 (by omega) hlen
  rw [hstep] at h1 h2 h3
  refine ⟨m, ?_, fun k hk => by simpa using h1 k hk,
      by simpa using h2, fun k hk => by simpa using h3 k hk⟩
  rw [chunk_text, if_neg hs, heq, hstep]
  simp

theorem chunk_text_ne_nil (s : List Char) (size ov : Nat) (hs : s ≠ [])
    (hov : ov < size) : chunk_text s size ov ≠ [] := by
  obtain ⟨m, heq, _, _, _⟩ := chunk_text_windows s size ov hs hov
  rw [heq]
  simp

theorem chunk_text_mem (s : List Char) (size ov : Nat) (hs : s ≠ [])
    (hov : ov < size) :
    ∀ x ∈ chunk_text s size ov,
      x.2.2 = (s.drop x.1).take size ∧ x.2.1 = min (x.1 + size) s.length ∧
      x.1 < s.length ∧ min s.length (ov + 1) ≤ x.2.2.length := by
  obtain ⟨m, heq, h1, h2, h3⟩ := chunk_text_windows s size ov hs hov
  intro x hx
  rw [heq] at hx
  obtain ⟨k, hk, rfl⟩ := List.mem_map.mp hx
  have hk' : k ≤ m := by
    have := List.mem_range.mp hk
    omega
  refine ⟨rfl, rfl, h3 k hk', ?_⟩
  simp only [List.length_take, List.length_drop]
  by_cases hkm : k < m
  · have h4 := h1 k hkm
    omega
  · have hkm2 : k = m := by omega
    subst hkm2
    match k with
    | 0 => simpa using (by omega : min s.length (ov + 1) ≤ min size s.length)
    | (j + 1) =>
      have h4 := h1 j (by omega)
      rw [Nat.succ_mul] at *
      omega

/-! ## Structure of the built tree -/

theorem ov_lt_size (L : Nat) (hL : L ≤ 4) : overlapAt L < sizeAt L := by
  interval_cases L <;> decide

/-- Lower bound on the text length entering each chunking level: 144 for
the whole input, then 90, 62, 38, 24 for levels 1-4. -/
def bLevel : Nat → Nat
  | 0 => 144
  | 1 => 90
  | 2 => 62
  | 3 => 38
  | _ => 24

theorem bLevel_ge15 : ∀ L, 15 ≤ bLevel L
  | 0 => by decide
  | 1 => by decide
  | 2 => by decide
  | 3 => by decide
  | (n + 4) => by
    have h : bLevel (n + 4) = 24 := rfl
    omega

theorem bLevel_step (L : Nat) (hL : L ≤ 4) :
    (if L < 4 then bLevel (L + 1) else 15) ≤ min (bLevel L) (overlapAt L + 1) := by
  interval_cases L <;> decide

theorem buildLevel_master (L : Nat) (hL : L ≤ 4) (s : List Char) (hs : s ≠ [])
    (off : Nat) :
    buildLevel s off L ≠ [] ∧
    ∀ n ∈ buildLevel s off L,
      n.level = (L : Int) ∧ n.text ≠ [] ∧
      min s.length (overlapAt L + 1) ≤ n.text.length ∧
      (L < 4 → n.children = buildLevel n.text n.start (L + 1) ∧ n.children ≠ []) ∧
      (L = 4 → n.children = []) := by
  have h5 : ¬ 5 ≤ L := by omega
  have hov := ov_lt_size L hL
  constructor
  · rw [buildLevel, dif_neg h5]
    intro hcon
    exact chunk_text_ne_nil s (sizeAt L) (overlapAt L) hs hov
      (List.map_eq_nil_iff.mp hcon)
  · intro n hn
    rw [buildLevel, dif_neg h5] at hn
    obtain ⟨x, hx, rfl⟩ := List.mem_map.mp hn
    have hchunk := chunk_text_mem s (sizeAt L) (overlapAt L) hs hov x hx
    have hlen := hchunk.2.2.2
    have hmin1 : 1 ≤ min s.length (overlapAt L + 1) := by
      have := List.length_pos.mpr hs
      omega
    have htne : x.2.2 ≠ [] := by
      rw [← List.length_pos]
      omega
    refine ⟨rfl, htne, by simpa using hlen, ?_, ?_⟩
    · intro h4
      constructor
      · simp only [FractalNode.children, FractalNode.text, FractalNode.start]
        rw [dif_pos h4]
      · simp only [FractalNode.children]
        rw [dif_pos h4]
        exact (buildLevel_master (L + 1) (by omega) x.2.2 htne (off + x.1)).1
    · intro h4
      simp only [FractalNode.children]
      rw [dif_neg (by omega)]
termination_by 5 - L

theorem buildLevel_allNone (L : Nat) (s : List Char) (off : Nat) :
    ∀ n ∈ buildLevel s off L, ∀ m ∈ treeNodes n,
      m.embedding = none ∧ m.centroid = none := by
  intro n hn m hm
  by_cases h5 : 5 ≤ L
  · rw [buildLevel, dif_pos h5] at hn
    simp at hn
  · rw [buildLevel, dif_neg h5] at hn
    obtain ⟨x, hx, rfl⟩ := List.mem_map.mp hn
    rcases mem_treeNodes_cases hm with rfl | ⟨c, hc, hmc⟩
    · exact ⟨rfl, rfl⟩
    · simp only [FractalNode.children] at hc
      by_cases h4 : L < 4
      · rw [dif_pos h4] at hc
        exact buildLevel_allNone (L + 1) x.2.2 (off + x.1) c hc m hmc
      · rw [dif_neg h4] at hc
        simp at hc
termination_by 5 - L

theorem buildLevel_leaf_bound (L : Nat) (hL : L ≤ 4) (s : List Char) (off : Nat)
    (hs : s ≠ []) (hlen : bLevel L ≤ s.length) :
    ∀ n ∈ buildLevel s off L, ∀ m ∈ treeNodes n, m.children = [] →
      m.level = 4 ∧ 15 ≤ m.text.length := by
  intro n hn m hm hleaf
  have h5 : ¬ 5 ≤ L := by omega
  have hov := ov_lt_size L hL
  rw [buildLevel, dif_neg h5] at hn
  obtain ⟨x, hx, rfl⟩ := List.mem_map.mp hn
  have hchunk := chunk_text_mem s (sizeAt L) (overlapAt L) hs hov x hx
  have htext := hchunk.2.2.2
  have hb2 : (if L < 4 then bLevel (L + 1) else 15) ≤ x.2.2.length :=
    le_trans (le_trans (bLevel_step L hL) (min_le_min hlen (le_refl _))) htext
  have h15 : 15 ≤ x.2.2.length := by
    by_cases h4 : L < 4
    · rw [if_pos h4] at hb2
      have := bLevel_ge15 (L + 1)
      omega
    · rw [if_neg h4] at hb2
      omega
  have htne : x.2.2 ≠ [] := by
    rw [← List.length_pos]
    omega
  rcases mem_treeNodes_cases hm with rfl | ⟨c, hc, hmc⟩
  · by_cases h4 : L < 4
    · exfalso
      simp only [FractalNode.children] at hleaf
      rw [dif_pos h4] at hleaf
      exact (buildLevel_master (L + 1) (by omega) x.2.2 htne (off + x.1)).1 hleaf
    · have hL4 : L = 4 := by omega
      subst hL4
      rw [if_neg h4] at hb2
      exact ⟨rfl, by simpa using hb2⟩
  · simp only [FractalNode.children] at hc
    by_cases h4 : L < 4
    · rw [dif_pos h4] at hc
      rw [if_pos h4] at hb2
      exact buildLevel_leaf_bound (L + 1) (by omega) x.2.2 (off + x.1) htne hb2
        c hc m hmc hleaf
    · rw [dif_neg h4] at hc
      simp at hc
termination_by 5 - L

/-! ## Behaviour of the embedding pass -/

theorem fractal_ind {P : FractalNode → Prop}
    (h : ∀ n : FractalNode, (∀ c ∈ n.children, P c) → P n) : ∀ n, P n := by
  intro n
  exact h n (fun c hc => fractal_ind h c)
termination_by n => sizeOf n
decreasing_by exact sizeOf_children_lt n hc

theorem embedNode_leaf (p : Provider) (l : Int) (t : List Char) (s e : Nat)
    (emb cen : Option Vec) :
    embedNode p (.mk l t s e emb cen []) =
      if t ≠ [] ∧ 10 ≤ t.length then
        (FractalNode.mk l t s e (getEmbedding p t) cen [],
         if pyTruthy (getEmbedding p t) then 1 else 0)
      else (FractalNode.mk l t s e emb cen [], 0) := by
  rw [embedNode]

theorem embedNode_node (p : Provider) (l : Int) (t : List Char) (s e : Nat)
    (emb cen : Option Vec) (c0 : FractalNode) (rest : List FractalNode) :
    embedNode p (.mk l t s e emb cen (c0 :: rest)) =
      (FractalNode.mk l t s e emb
        (compute_centroid (eligVecs ((c0 :: rest).map (fun c => (embedNode p c).1))))
        ((c0 :: rest).map (fun c => (embedNode p c).1)),
       ((c0 :: rest).map (fun c => (embedNode p c).2)).sum) := by
  rw [embedNode]
  have hat : ((c0 :: rest).attach.map (fun c => embedNode p c.1))
      = (c0 :: rest).map (embedNode p) := by
    rw [List.map_attach]
    simp
  rw [hat]
  simp only [List.map_map]
  rfl

theorem embedNode_children (p : Provider) (n : FractalNode) :
    (embedNode p n).1.children = n.children.map (fun c => (embedNode p c).1) := by
  cases n with
  | mk l t s e emb cen ch =>
    cases ch with
    | nil =>
      rw [embedNode_leaf]
      by_cases hrule : t ≠ [] ∧ 10 ≤ t.length
      · rw [if_pos hrule]
        simp
      · rw [if_neg hrule]
        simp
    | cons c0 rest =>
      rw [embedNode_node]
      simp

/-- Leaf rule of `embed_tree` on a tree whose embeddings start out absent:
every leaf of the embedded subtree holds the provider result if its text
is truthy and at least 10 chars, else no embedding. -/
theorem embedNode_leaf_rule (p : Provider) :
    ∀ n : FractalNode, (∀ m ∈ treeNodes n, m.embedding = none) →
    ∀ ℓ ∈ treeNodes (embedNode p n).1, ℓ.children = [] →
      ℓ.embedding =
        if ℓ.text ≠ [] ∧ 10 ≤ ℓ.text.length then getEmbedding p ℓ.text else none := by
  refine fractal_ind (fun n ih => ?_)
  intro hnone ℓ hℓ hleaf
  cases n with
  | mk l t s e emb cen ch =>
    cases ch with
    | nil =>
      rw [embedNode_leaf] at hℓ
      by_cases hrule : t ≠ [] ∧ 10 ≤ t.length
      · rw [if_pos hrule] at hℓ
        rcases mem_treeNodes_cases hℓ with rfl | ⟨c, hc, _⟩
        · simp only [FractalNode.embedding, FractalNode.text]
          rw [if_pos hrule]
        · simp at hc
      · rw [if_neg hrule] at hℓ
        rcases mem_treeNodes_cases hℓ with rfl | ⟨c, hc, _⟩
        · have he : emb = none := by
            simpa using hnone _ (self_mem_treeNodes _)
          simp only [FractalNode.embedding, FractalNode.text]
          rw [he, if_neg hrule]
        · simp at hc
    | cons c0 rest =>
      rw [embedNode_node] at hℓ
      rcases mem_treeNodes_cases hℓ with rfl | ⟨c, hc, hmc⟩
      · simp at hleaf
      · simp only [FractalNode.children] at hc
        obtain ⟨c', hc', rfl⟩ := List.mem_map.mp hc
        exact ih c' (by simpa using hc')
          (fun m hm => hnone m (mem_treeNodes_trans (by simpa using hc') hm))
          ℓ hmc hleaf

/-- After the embedding pass on an all-`None` tree, leaves carry no
centroid and internal nodes carry no embedding. -/
theorem embedNode_ok (p : Provider) :
    ∀ n : FractalNode, (∀ m ∈ treeNodes n, m.embedding = none ∧ m.centroid = none) →
    ∀ m ∈ treeNodes (embedNode p n).1,
      (m.children = [] → m.centroid = none) ∧ (m.children ≠ [] → m.embedding = none) := by
  refine fractal_ind (fun n ih => ?_)
  intro hnone m hm
  cases n with
  | mk l t s e emb cen ch =>
    cases ch with
    | nil =>
      have hcen : cen = none := by
        simpa using (hnone _ (self_mem_treeNodes _)).2
      rw [embedNode_leaf] at hm
      by_cases hrule : t ≠ [] ∧ 10 ≤ t.length
      · rw [if_pos hrule] at hm
        rcases mem_treeNodes_cases hm with rfl | ⟨c, hc, _⟩
        · refine ⟨fun _ => by simpa using hcen, fun hch => ?_⟩
          exfalso
          apply hch
          simp
        · simp at hc
      · rw [if_neg hrule] at hm
        rcases mem_treeNodes_cases hm with rfl | ⟨c, hc, _⟩
        · refine ⟨fun _ => by simpa using hcen, fun hch => ?_⟩
          exfalso
          apply hch
          simp
        · simp at hc
    | cons c0 rest =>
      have hemb : emb = none := by
        simpa using (hnone _ (self_mem_treeNodes _)).1
      rw [embedNode_node] at hm
      rcases mem_treeNodes_cases hm with rfl | ⟨c, hc, hmc⟩
      · refine ⟨fun hch => ?_, fun _ => by simpa using hemb⟩
        simp at hch
      · simp only [FractalNode.children] at hc
        obtain ⟨c', hc', rfl⟩ := List.mem_map.mp hc
        exact ih c' (by simpa using hc')
          (fun x hx => hnone x (mem_treeNodes_trans (by simpa using hc') hx))
          m hmc

/-! ## Centroid computation versus the spec's elementwise mean -/

theorem addInto_length (acc v : Vec) : (addInto acc v).length = acc.length := by
  simp only [addInto, List.length_append, List.length_zipWith, List.length_drop]
  omega

theorem foldl_addInto_length (vs : List Vec) :
    ∀ acc : Vec, (vs.foldl addInto acc).length = acc.length := by
  induction vs with
  | nil => intro acc; rfl
  | cons v rest ih =>
    intro acc
    rw [List.foldl_cons, ih, addInto_length]

theorem foldl_addInto_eq (vs : List Vec) :
    ∀ acc : Vec, (∀ v ∈ vs, v.length = acc.length) →
    vs.foldl addInto acc = vs.foldl (fun a v => List.zipWith (· + ·) a v) acc := by
  induction vs with
  | nil => intro acc _; rfl
  | cons v rest ih =>
    intro acc h
    have hv : v.length = acc.length := h v (List.mem_cons_self _ _)
    have hstep : addInto acc v = List.zipWith (· + ·) acc v := by
      rw [addInto, hv, List.drop_length, List.append_nil]
    rw [List.foldl_cons, List.foldl_cons, hstep]
    refine ih _ (fun w hw => ?_)
    rw [h w (List.mem_cons_of_mem _ hw), List.length_zipWith, hv]
    omega

theorem compute_centroid_spec (d : Nat) (vs : List Vec) (hne : vs ≠ [])
    (hlen : ∀ v ∈ vs, v.length = d) :
    compute_centroid vs = some (elementwiseMean vs) ∧ (elementwiseMean vs).length = d := by
  cases vs with
  | nil => exact absurd rfl hne
  | cons v0 rest =>
    have hd : v0.length = d := hlen v0 (List.mem_cons_self _ _)
    have hinit : (List.replicate v0.length (0:ℝ)).length = v0.length := by simp
    have hfold : ((v0 :: rest).foldl addInto (List.replicate v0.length (0:ℝ)))
        = ((v0 :: rest).foldl (fun a v => List.zipWith (· + ·) a v)
            (List.replicate v0.length (0:ℝ))) := by
      refine foldl_addInto_eq _ _ (fun w hw => ?_)
      rw [hlen w hw, hinit, hd]
    constructor
    · rw [compute_centroid, elementwiseMean]
      simp only [List.headD_cons]
      rw [hfold]
    · rw [elementwiseMean]
      simp only [List.headD_cons, List.length_map]
      rw [← hfold, foldl_addInto_length, hinit, hd]

theorem compute_centroid_present (v0 : Vec) (rest : List Vec) (h0 : v0 ≠ []) :
    ∃ w, compute_centroid (v0 :: rest) = some w ∧ w ≠ [] := by
  refine ⟨_, rfl, ?_⟩
  rw [← List.length_pos]
  simp only [List.length_map]
  rw [foldl_addInto_length]
  simp only [List.length_replicate]
  rw [List.length_pos]
  exact h0

theorem eligVecs_eq_specElig (d : Nat) (hd0 : 0 < d) (children : List FractalNode)
    (hfacts : ∀ c ∈ children,
      (c.embedding = none ∨ ∃ v, c.embedding = some v ∧ v.length = d) ∧
      (c.centroid = none ∨ ∃ v, c.centroid = some v ∧ v.length = d)) :
    eligVecs children = specElig children := by
  induction children with
  | nil => rfl
  | cons c rest ih =>
    have hc := hfacts c (List.mem_cons_self _ _)
    have hstep : (if pyTruthy c.embedding then c.embedding
        else if pyTruthy c.centroid then c.centroid else none)
        = (match c.embedding with
           | some v => some v
           | none => c.centroid) := by
      rcases hc.1 with he | ⟨v, he, hv⟩
      · rw [he]
        simp only [pyTruthy]
        rcases hc.2 with hcn | ⟨w, hcn, hw⟩
        · rw [hcn]
          rfl
        · rw [hcn]
          cases w with
          | nil => simp at hw; omega
          | cons x xs => rfl
      · rw [he]
        cases v with
        | nil => simp at hv; omega
        | cons x xs => rfl
    rw [eligVecs, specElig, List.filterMap_cons, List.filterMap_cons, hstep]
    have ih2 := ih (fun x hx => hfacts x (List.mem_cons_of_mem _ hx))
    rw [eligVecs, specElig] at ih2
    cases hm : (match c.embedding with
        | some v => some v
        | none => c.centroid) with
    | none => simpa [hm] using ih2
    | some v => simpa [hm] using ih2

theorem specElig_lengths (d : Nat) (children : List FractalNode)
    (hfacts : ∀ c ∈ children,
      (c.embedding = none ∨ ∃ v, c.embedding = some v ∧ v.length = d) ∧
      (c.centroid = none ∨ ∃ v, c.centroid = some v ∧ v.length = d)) :
    ∀ v ∈ specElig children, v.length = d := by
  intro v hv
  obtain ⟨c, hc, hfc⟩ := List.mem_filterMap.mp hv
  have hfact := hfacts c hc
  rcases hfact.1 with he | ⟨w, he, hw⟩
  · rw [he] at hfc
    have hfc2 : c.centroid = some v := hfc
    rcases hfact.2 with hcn | ⟨w, hcn, hw⟩
    · rw [hcn] at hfc2
      exact Option.noConfusion hfc2
    · rw [hcn] at hfc2
      injection hfc2 with h2
      rw [← h2]
      exact hw
  · rw [he] at hfc
    injection hfc with h2
    rw [← h2]
    exact hw

theorem embedNode_centroid (p : Provider) (d : Nat)
    (hd : ∀ s v, p s = some v → v.length = d) (hd0 : 0 < d) :
    ∀ n : FractalNode, (∀ m ∈ treeNodes n, m.embedding = none ∧ m.centroid = none) →
    ∀ m ∈ treeNodes (embedNode p n).1,
      (m.embedding = none ∨ ∃ v, m.embedding = some v ∧ v.length = d) ∧
      (m.centroid = none ∨ ∃ v, m.centroid = some v ∧ v.length = d) ∧
      (m.children ≠ [] → m.centroid = centroidSpec m.children) := by
  refine fractal_ind (fun n ih => ?_)
  intro hnone m hm
  cases n with
  | mk l t s e emb cen ch =>
    have hcen : cen = none := by simpa using (hnone _ (self_mem_treeNodes _)).2
    have hemb : emb = none := by simpa using (hnone _ (self_mem_treeNodes _)).1
    cases ch with
    | nil =>
      rw [embedNode_leaf] at hm
      by_cases hrule : t ≠ [] ∧ 10 ≤ t.length
      · rw [if_pos hrule] at hm
        rcases mem_treeNodes_cases hm with rfl | ⟨c, hc, _⟩
        · refine ⟨?_, ?_, ?_⟩
          · cases hge : getEmbedding p t with
            | none =>
              left
              simp only [FractalNode.embedding]
            | some v =>
              right
              exact ⟨v, by simp only [FractalNode.embedding],
                hd (t.take MAX_TEXT_LENGTH) v hge⟩
          · left
            simp only [FractalNode.centroid]
            exact hcen
          · intro hch
            exfalso
            apply hch
            simp
        · simp at hc
      · rw [if_neg hrule] at hm
        rcases mem_treeNodes_cases hm with rfl | ⟨c, hc, _⟩
        · refine ⟨?_, ?_, ?_⟩
          · left
            simp only [FractalNode.embedding]
            exact hemb
          · left
            simp only [FractalNode.centroid]
            exact hcen
          · intro hch
            exfalso
            apply hch
            simp
        · simp at hc
    | cons c0 rest =>
      rw [embedNode_node] at hm
      rcases mem_treeNodes_cases hm with rfl | ⟨c, hc, hmc⟩
      · have hchfacts : ∀ c ∈ (c0 :: rest).map (fun c => (embedNode p c).1),
            (c.embedding = none ∨ ∃ v, c.embedding = some v ∧ v.length = d) ∧
            (c.centroid = none ∨ ∃ v, c.centroid = some v ∧ v.length = d) := by
          intro c hc
          obtain ⟨c', hc', rfl⟩ := List.mem_map.mp hc
          have hres := ih c' (by simpa using hc')
            (fun x hx => hnone x (mem_treeNodes_trans (by simpa using hc') hx))
            _ (self_mem_treeNodes _)
          exact ⟨hres.1, hres.2.1⟩
        have helig : eligVecs ((c0 :: rest).map (fun c => (embedNode p c).1))
            = specElig ((c0 :: rest).map (fun c => (embedNode p c).1)) :=
          eligVecs_eq_specElig d hd0 _ hchfacts
        have hlens := specElig_lengths d _ hchfacts
        refine ⟨?_, ?_, ?_⟩
        · left
          simp only [FractalNode.embedding]
          exact hemb
        · simp only [FractalNode.centroid]
          rw [helig]
          cases hsp : specElig ((c0 :: rest).map (fun c => (embedNode p c).1)) with
          | nil =>
            left
            rfl
          | cons v0 vs =>
            right
            have hlens2 : ∀ v ∈ (v0 :: vs), v.length = d := by
              rw [← hsp]
              exact hlens
            have hcc := compute_centroid_spec d (v0 :: vs) (by simp) hlens2
            exact ⟨elementwiseMean (v0 :: vs), hcc.1, hcc.2⟩
        · intro _
          simp only [FractalNode.centroid, FractalNode.children]
          rw [helig, centroidSpec]
          cases hsp : specElig ((c0 :: rest).map (fun c => (embedNode p c).1)) with
          | nil => rfl
          | cons v0 vs =>
            have hlens2 : ∀ v ∈ (v0 :: vs), v.length = d := by
              rw [← hsp]
              exact hlens
            exact (compute_centroid_spec d (v0 :: vs) (by simp) hlens2).1
      · simp only [FractalNode.children] at hc
        obtain ⟨c', hc', rfl⟩ := List.mem_map.mp hc
        exact ih c' (by simpa using hc')
          (fun x hx => hnone x (mem_treeNodes_trans (by simpa using hc') hx))
          m hmc

theorem embedTree_components (p : Provider) (root : FractalNode) :
    (embedTree p root).1.level = root.level ∧
    (embedTree p root).1.text = root.text ∧
    (embedTree p root).1.start = root.start ∧
    (embedTree p root).1.stop = root.stop ∧
    (embedTree p root).1.embedding = root.embedding ∧
    (embedTree p root).1.centroid = root.centroid ∧
    (embedTree p root).1.children = root.children.map (fun c => (embedNode p c).1) ∧
    (embedTree p root).2 = (root.children.map (fun c => (embedNode p c).2)).sum := by
  cases root with
  | mk l t s e emb cen ch =>
    rw [embedTree]
    refine ⟨rfl, rfl, rfl, rfl, rfl, rfl, ?_, ?_⟩
    · simp only [FractalNode.children, List.map_map]
      rfl
    · simp only [FractalNode.children, List.map_map]
      rfl

theorem embedNode_count (p : Provider) :
    ∀ n : FractalNode,
    (∀ ℓ ∈ get_leaves n, (ℓ.text ≠ [] ∧ 10 ≤ ℓ.text.length) ∧
      pyTruthy (getEmbedding p ℓ.text) = true) →
    (embedNode p n).2 = (get_leaves n).length := by
  refine fractal_ind (fun n ih => ?_)
  intro hyp
  cases n with
  | mk l t s e emb cen ch =>
    cases ch with
    | nil =>
      have hl : get_leaves (FractalNode.mk l t s e emb cen [])
          = [FractalNode.mk l t s e emb cen []] := get_leaves_leaf (by simp)
      have hme := hyp _ (by rw [hl]; exact List.mem_cons_self _ _)
      simp only [FractalNode.text] at hme
      rw [embedNode_leaf, if_pos hme.1, hl]
      simp [hme.2]
    | cons c0 rest =>
      have hch : (FractalNode.mk l t s e emb cen (c0 :: rest)).children ≠ [] := by simp
      have hl := get_leaves_node hch
      simp only [FractalNode.children] at hl
      rw [embedNode_node, hl]
      show ((c0 :: rest).map (fun c => (embedNode p c).2)).sum = _
      rw [List.length_flatten, List.map_map]
      refine congrArg List.sum (List.map_congr_left (fun c hc => ?_))
      refine ih c (by simpa using hc) (fun ℓ hℓ => hyp ℓ ?_)
      rw [hl]
      exact List.mem_flatten.mpr ⟨get_leaves c, List.mem_map_of_mem _ hc, hℓ⟩

theorem embedNode_present (p : Provider) :
    ∀ n : FractalNode,
    (∀ m ∈ treeNodes n, m.embedding = none ∧ m.centroid = none) →
    (∀ ℓ ∈ treeNodes n, ℓ.children = [] →
      (ℓ.text ≠ [] ∧ 10 ≤ ℓ.text.length) ∧
      ∃ v, getEmbedding p ℓ.text = some v ∧ v ≠ []) →
    ((embedNode p n).1.children = [] →
      ∃ v, (embedNode p n).1.embedding = some v ∧ v ≠ []) ∧
    ((embedNode p n).1.children ≠ [] →
      ∃ v, (embedNode p n).1.centroid = some v ∧ v ≠ []) := by
  refine fractal_ind (fun n ih => ?_)
  intro hnone hleafs
  cases n with
  | mk l t s e emb cen ch =>
    cases ch with
    | nil =>
      have hme := hleafs _ (self_mem_treeNodes _) (by simp)
      simp only [FractalNode.text] at hme
      obtain ⟨hrule, v, hv, hvne⟩ := hme
      rw [embedNode_leaf, if_pos hrule]
      constructor
      · intro _
        exact ⟨v, by simp only [FractalNode.embedding]; exact hv, hvne⟩
      · intro hch2
        exfalso
        apply hch2
        simp
    | cons c0 rest =>
      rw [embedNode_node]
      constructor
      · intro hch2
        exfalso
        simp at hch2
      · intro _
        have hc0mem : c0 ∈ (FractalNode.mk l t s e emb cen (c0 :: rest)).children := by
          simp
        have hsub : ∀ x ∈ treeNodes c0,
            x.embedding = none ∧ x.centroid = none :=
          fun x hx => hnone x (mem_treeNodes_trans hc0mem hx)
        have ihc0 := ih c0 hc0mem hsub
          (fun ℓ hℓ hlf => hleafs ℓ (mem_treeNodes_trans hc0mem hℓ) hlf)
        have hfr0 : ∃ v, (if pyTruthy (embedNode p c0).1.embedding
              then (embedNode p c0).1.embedding
              else if pyTruthy (embedNode p c0).1.centroid
                then (embedNode p c0).1.centroid else none) = some v ∧ v ≠ [] := by
          by_cases hr0 : (embedNode p c0).1.children = []
          · obtain ⟨v, hv, hvne⟩ := ihc0.1 hr0
            cases v with
            | nil => exact absurd rfl hvne
            | cons x xs =>
              refine ⟨x :: xs, ?_, hvne⟩
              rw [hv]
              rfl
          · obtain ⟨v, hv, hvne⟩ := ihc0.2 hr0
            have hembnone : (embedNode p c0).1.embedding = none :=
              (embedNode_ok p c0 hsub _ (self_mem_treeNodes _)).2 hr0
            cases v with
            | nil => exact absurd rfl hvne
            | cons x xs =>
              refine ⟨x :: xs, ?_, hvne⟩
              rw [hembnone, hv]
              rfl
        obtain ⟨v, hfv, hvne⟩ := hfr0
        have helig : eligVecs ((c0 :: rest).map (fun c => (embedNode p c).1))
            = v :: (rest.map (fun c => (embedNode p c).1)).filterMap
                (fun c => if pyTruthy c.embedding then c.embedding
                  else if pyTruthy c.centroid then c.centroid else none) := by
          rw [List.map_cons, eligVecs, List.filterMap_cons, hfv]
        obtain ⟨w, hw, hwne⟩ := compute_centroid_present v _ hvne
        refine ⟨w, ?_, hwne⟩
        simp only [FractalNode.centroid]
        rw [helig]
        exact hw

/-! ## Beam search: code scoring versus spec scoring -/

theorem mem_nextOf {n' : FractalNode} {top : List (ℝ × FractalNode)}
    (h : n' ∈ nextOf top) : ∃ sn ∈ top, n' ∈ sn.2.children := by
  obtain ⟨l, hl, hn⟩ := List.mem_flatten.mp h
  obtain ⟨sn, hsn, rfl⟩ := List.mem_map.mp hl
  exact ⟨sn, hsn, hn⟩

theorem mem_topOf {sn : ℝ × FractalNode} {score : FractalNode → ℝ} {bw : Nat}
    {beam : List FractalNode} (h : sn ∈ topOf score bw beam) : sn.2 ∈ beam := by
  have h1 : sn ∈ List.insertionSort (keyRel Prod.fst)
      (beam.map (fun n => (score n, n))) :=
    (List.take_sublist _ _).mem h
  have h2 : sn ∈ beam.map (fun n => (score n, n)) :=
    (List.perm_insertionSort _ _).mem_iff.mp h1
  obtain ⟨n, hn, rfl⟩ := List.mem_map.mp h2
  exact hn

theorem topOf_congr {s1 s2 : FractalNode → ℝ} (bw : Nat)
    {beam : List FractalNode} (h : ∀ n ∈ beam, s1 n = s2 n) :
    topOf s1 bw beam = topOf s2 bw beam := by
  rw [topOf, topOf]
  rw [List.map_congr_left (fun n hn => by rw [h n hn])]

theorem beamLoop_congr (s1 s2 : FractalNode → ℝ) (bw : Nat)
    (beam : List FractalNode) (acc : List BeamResult)
    (hag : ∀ n ∈ beam, ∀ m ∈ treeNodes n, s1 m = s2 m) :
    beamLoop s1 bw beam acc = beamLoop s2 bw beam acc := by
  by_cases hb : beam.isEmpty
  · rw [beamLoop, if_pos hb, beamLoop, if_pos hb]
  · have htop : topOf s1 bw beam = topOf s2 bw beam :=
      topOf_congr bw (fun n hn => hag n hn n (self_mem_treeNodes n))
    conv_lhs => rw [beamLoop]
    conv_rhs => rw [beamLoop]
    rw [← htop, if_neg hb, if_neg hb]
    by_cases hnext : (nextOf (topOf s1 bw beam)).isEmpty
    · rw [if_pos hnext, if_pos hnext]
    · rw [if_neg hnext, if_neg hnext]
      refine beamLoop_congr s1 s2 bw (nextOf (topOf s1 bw beam)) _ ?_
      intro n' hn' m hm
      obtain ⟨sn, hsn, hchild⟩ := mem_nextOf hn'
      exact hag sn.2 (mem_topOf hsn) m (mem_treeNodes_trans hchild hm)
termination_by (beam.map sizeOf).sum
decreasing_by
  refine measure_next_lt s1 bw beam (fun hcon => ?_)
  rw [hcon] at hnext
  exact hnext rfl

theorem score_eq_of_ok (q : Vec) (m : FractalNode)
    (h1 : m.children = [] → m.centroid = none)
    (h2 : m.children ≠ [] → m.embedding = none) :
    codeScore q m = specScore q m := by
  cases m with
  | mk l t s e emb cen ch =>
    simp only [FractalNode.children] at h1 h2
    rw [codeScore, specScore]
    simp only [FractalNode.children, FractalNode.centroid, FractalNode.embedding]
    cases ch with
    | nil =>
      have hcen : cen = none := h1 rfl
      subst hcen
      simp [pyTruthy]
    | cons c0 rest =>
      have hemb : emb = none := h2 (by simp)
      subst hemb
      cases cen with
      | none => simp [pyTruthy]
      | some v =>
        cases v with
        | nil => simp [pyTruthy]
        | cons x xs => simp [pyTruthy]

/-! ## Shape of the root returned by build_fractal_tree -/

theorem build_root_cases (text : List Char) (root : FractalNode)
    (hb : buildFractalTree text = some root) :
    text ≠ [] ∧
    ((text.length < 144 ∧ root = FractalNode.mk 0 text 0 text.length none none []) ∨
     (144 ≤ text.length ∧
      root = FractalNode.mk (-1) [] 0 text.length none none (buildLevel text 0 0))) := by
  rw [buildFractalTree] at hb
  by_cases h0 : text = []
  · rw [if_pos h0] at hb
    cases hb
  · rw [if_neg h0] at hb
    refine ⟨h0, ?_⟩
    by_cases h1 : text.length < 144
    · rw [if_pos h1] at hb
      injection hb with hb2
      exact Or.inl ⟨h1, hb2.symm⟩
    · rw [if_neg h1] at hb
      injection hb with hb2
      exact Or.inr ⟨by omega, hb2.symm⟩

theorem build_allNone (text : List Char) (root : FractalNode)
    (hb : buildFractalTree text = some root) :
    ∀ m ∈ treeNodes root, m.embedding = none ∧ m.centroid = none := by
  obtain ⟨h0, hcase⟩ := build_root_cases text root hb
  intro m hm
  rcases hcase with ⟨h1, rfl⟩ | ⟨h1, rfl⟩
  · rcases mem_treeNodes_cases hm with rfl | ⟨c, hc, _⟩
    · exact ⟨rfl, rfl⟩
    · simp at hc
  · rcases mem_treeNodes_cases hm with rfl | ⟨c, hc, hmc⟩
    · exact ⟨rfl, rfl⟩
    · simp only [FractalNode.children] at hc
      exact buildLevel_allNone 0 text 0 c hc m hmc

theorem get_leaves_sub : ∀ n : FractalNode, ∀ ℓ ∈ get_leaves n,
    ℓ ∈ treeNodes n ∧ ℓ.children = [] := by
  refine fractal_ind (fun n ih => ?_)
  intro ℓ hℓ
  by_cases hch : n.children = []
  · rw [get_leaves_leaf hch] at hℓ
    rcases List.mem_singleton.mp hℓ with rfl
    exact ⟨self_mem_treeNodes _, hch⟩
  · rw [get_leaves_node hch] at hℓ
    obtain ⟨l, hl, hℓl⟩ := List.mem_flatten.mp hℓ
    obtain ⟨c, hc, rfl⟩ := List.mem_map.mp hl
    obtain ⟨h1, h2⟩ := ih c hc ℓ hℓl
    exact ⟨mem_treeNodes_trans hc h1, h2⟩

/-! ## C2: which leaves get embedded -/

/-- C2 (amended): in the embedded tree, every leaf reachable through the
root's children holds the provider result as its embedding when its text is
truthy and at least 10 characters, and no embedding otherwise.  However,
for input shorter than 144 characters `embed_tree` (which only visits the
root's children) never visits the degenerate tree's sole node, so that leaf
is returned unchanged with no embedding and an embedding count of 0 even
when its text is 10 or more characters long. -/
theorem c2_leaf_embedding (p : Provider) (text : List Char) (root : FractalNode)
    (hb : buildFractalTree text = some root) :
    (∀ c ∈ (embedTree p root).1.children, ∀ ℓ ∈ treeNodes c, ℓ.children = [] →
      ℓ.embedding =
        if ℓ.text ≠ [] ∧ 10 ≤ ℓ.text.length then getEmbedding p ℓ.text else none) ∧
    (text.length < 144 →
      (embedTree p root).1 = root ∧ root.children = [] ∧
      (embedTree p root).1.embedding = none ∧ (embedTree p root).2 = 0) := by
  have hnone := build_allNone text root hb
  constructor
  · intro c hc ℓ hℓ hleaf
    rw [(embedTree_components p root).2.2.2.2.2.2.1] at hc
    obtain ⟨c', hc', rfl⟩ := List.mem_map.mp hc
    exact embedNode_leaf_rule p c'
      (fun m hm => (hnone m (mem_treeNodes_trans hc' hm)).1) ℓ hℓ hleaf
  · intro h144
    obtain ⟨h0, hcase⟩ := build_root_cases text root hb
    rcases hcase with ⟨h1, rfl⟩ | ⟨h1, rfl⟩
    · exact ⟨rfl, rfl, rfl, rfl⟩
    · omega

def c2text : List Char := List.replicate 20 'a'

def c2leaf : FractalNode := FractalNode.mk 0 c2text 0 20 none none []

theorem build_c2text : buildFractalTree c2text = some c2leaf := by
  rw [buildFractalTree, if_neg (by decide), if_pos (by decide)]
  rw [c2leaf]
  rw [show c2text.length = 20 by rw [c2text, List.length_replicate]]

/-- C2 counterexample: for the 20-character input the built tree is the
degenerate single leaf; its text is ≥ 10 characters and the provider
succeeds on it, yet after `embed_tree` the leaf still has no embedding and
the returned count is 0 — the sole leaf is not embedded. -/
theorem c2_counterexample :
    buildFractalTree c2text = some c2leaf ∧
    10 ≤ c2leaf.text.length ∧
    getEmbedding pOne c2leaf.text = some [(1:ℝ)] ∧
    (embedTree pOne c2leaf).1.embedding = none ∧
    (embedTree pOne c2leaf).2 = 0 := by
  refine ⟨build_c2text, ?_, rfl, rfl, rfl⟩
  rw [show c2leaf.text = c2text from rfl, c2text, List.length_replicate]
  omega

/-- Witness for C2 (amended) at the concrete 20-character input. -/
theorem c2_leaf_embedding_witness :
    (embedTree pOne c2leaf).1 = c2leaf ∧ c2leaf.children = [] ∧
    (embedTree pOne c2leaf).1.embedding = none ∧ (embedTree pOne c2leaf).2 = 0 :=
  (c2_leaf_embedding pOne c2text c2leaf build_c2text).2
    (by rw [c2text, List.length_replicate]; omega)

/-! ## C4: beam search follows the specified algorithm -/

/-- C4: on any ingested tree (built by `build_fractal_tree` and embedded by
`embed_tree`) and any query vector, the source `beam_search` computes
exactly the spec's algorithm: beam initialized to the root's children,
each round scoring by centroid (internal) or embedding (leaf) with 0.0 when
missing, keeping the top `beam_width` stably, emitting kept leaves,
descending into kept internal nodes, emitting stuck internal nodes with a
500-char preview, and finally merging, sorting descending and keeping
`top_k`. -/
theorem c4_beam_refinement (p : Provider) (text : List Char) (root : FractalNode)
    (q : Vec) (bw tk : Nat) (hb : buildFractalTree text = some root) :
    beam_search (embedTree p root).1 q bw tk
      = beam_search_spec (embedTree p root).1 q bw tk := by
  have hnone := build_allNone text root hb
  obtain ⟨h0, hcase⟩ := build_root_cases text root hb
  rcases hcase with ⟨h1, rfl⟩ | ⟨h1, rfl⟩
  · have hfst1 : (embedTree p (FractalNode.mk 0 text 0 text.length none none [])).1
        = FractalNode.mk 0 text 0 text.length none none [] := rfl
    rw [beam_search, beam_search_spec, hfst1]
    simp only [FractalNode.children, FractalNode.embedding, List.isEmpty_nil, if_true]
    rw [beamLoop]
    simp
  · have hfst : (embedTree p
        (FractalNode.mk (-1) [] 0 text.length none none (buildLevel text 0 0))).1
        = FractalNode.mk (-1) [] 0 text.length none none
            (((buildLevel text 0 0).map (embedNode p)).map Prod.fst) := rfl
    have hblne : buildLevel text 0 0 ≠ [] := (buildLevel_master 0 (by omega) text h0 0).1
    have hchne : (((buildLevel text 0 0).map (embedNode p)).map Prod.fst) ≠ [] := by
      simpa using hblne
    have hagree : ∀ n ∈ ((buildLevel text 0 0).map (embedNode p)).map Prod.fst,
        ∀ m ∈ treeNodes n, codeScore q m = specScore q m := by
      intro n hn m hm
      rw [List.map_map] at hn
      obtain ⟨c', hc', rfl⟩ := List.mem_map.mp hn
      have hsub : ∀ x ∈ treeNodes c', x.embedding = none ∧ x.centroid = none := by
        intro x hx
        refine hnone x (mem_treeNodes_trans ?_ hx)
        simp only [FractalNode.children]
        exact hc'
      have hok := embedNode_ok p c' hsub _ hm
      exact score_eq_of_ok q _ hok.1 hok.2
    rw [beam_search, beam_search_spec, hfst]
    simp only [FractalNode.children]
    rw [if_neg (by simpa using hchne)]
    rw [beamLoop_congr (codeScore q) (specScore q) bw _ [] hagree]

def c4text : List Char := List.replicate 12 'b'

def c4root : FractalNode := FractalNode.mk 0 c4text 0 12 none none []

theorem build_c4text : buildFractalTree c4text = some c4root := by
  rw [buildFractalTree, if_neg (by decide), if_pos (by decide)]
  rw [c4root]
  rw [show c4text.length = 12 by rw [c4text, List.length_replicate]]

/-- Witness for C4 at a concrete ingested tree and query. -/
theorem c4_beam_refinement_witness :
    beam_search (embedTree pOne c4root).1 [(1:ℝ)] 3 5
      = beam_search_spec (embedTree pOne c4root).1 [(1:ℝ)] 3 5 :=
  c4_beam_refinement pOne c4text c4root [(1:ℝ)] 3 5 build_c4text

/-! ## C6: centroids of internal nodes -/

/-- C6 (amended): after ingest (build then embed) with a provider returning
fixed-dimension nonempty vectors, every internal node strictly below the
synthetic root has as centroid exactly the elementwise arithmetic mean of
its eligible children (embedding if present, else centroid if present, else
excluded), absent when no child is eligible; the synthetic root itself is
never given a centroid by `embed_tree`. -/
theorem c6_centroids (p : Provider) (d : Nat) (text : List Char) (root : FractalNode)
    (hd : ∀ s v, p s = some v → v.length = d) (hd0 : 0 < d)
    (hb : buildFractalTree text = some root) :
    (∀ c ∈ (embedTree p root).1.children, ∀ m ∈ treeNodes c,
      m.children ≠ [] → m.centroid = centroidSpec m.children) ∧
    (embedTree p root).1.centroid = none := by
  have hnone := build_allNone text root hb
  constructor
  · intro c hc m hm hch
    rw [(embedTree_components p root).2.2.2.2.2.2.1] at hc
    obtain ⟨c', hc', rfl⟩ := List.mem_map.mp hc
    exact (embedNode_centroid p d hd hd0 c'
      (fun x hx => hnone x (mem_treeNodes_trans hc' hx)) _ hm).2.2 hch
  · rw [(embedTree_components p root).2.2.2.2.2.1]
    exact (hnone root (self_mem_treeNodes root)).2

def c6text : List Char := List.replicate 144 'a'

def c6root : FractalNode := rootOf c6text

theorem c6text_ne : c6text ≠ [] := by
  rw [c6text]
  simp

theorem c6text_len : c6text.length = 144 := by
  rw [c6text, List.length_replicate]

theorem build_c6text : buildFractalTree c6text = some c6root :=
  buildFractalTree_eq_rootOf c6text_ne

theorem c6root_form : c6root = FractalNode.mk (-1) [] 0 c6text.length none none
    (buildLevel c6text 0 0) := by
  obtain ⟨h0, hcase⟩ := build_root_cases c6text c6root build_c6text
  rcases hcase with ⟨h1, h2⟩ | ⟨h1, h2⟩
  · rw [c6text_len] at h1
    omega
  · exact h2

theorem pOne_leaf_facts : ∀ ℓ : FractalNode, ℓ.text ≠ [] → 10 ≤ ℓ.text.length →
    (ℓ.text ≠ [] ∧ 10 ≤ ℓ.text.length) ∧
    ∃ v, getEmbedding pOne ℓ.text = some v ∧ v ≠ [] :=
  fun ℓ h1 h2 => ⟨⟨h1, h2⟩, [(1:ℝ)], rfl, by simp⟩

/-- C6 counterexample: for a 144-character input the embedded tree's
synthetic root is an internal node (it has children) with at least one
eligible child, yet its centroid is absent — so not every internal node's
centroid is the mean of its eligible children. -/
theorem c6_counterexample :
    buildFractalTree c6text = some c6root ∧
    (embedTree pOne c6root).1.children ≠ [] ∧
    specElig (embedTree pOne c6root).1.children ≠ [] ∧
    (embedTree pOne c6root).1.centroid = none := by
  have hcomp := embedTree_components pOne c6root
  have hblne : buildLevel c6text 0 0 ≠ [] :=
    (buildLevel_master 0 (by omega) c6text c6text_ne 0).1
  have hchildren : (embedTree pOne c6root).1.children
      = (buildLevel c6text 0 0).map (fun c => (embedNode pOne c).1) := by
    rw [hcomp.2.2.2.2.2.2.1, c6root_form]
    rfl
  refine ⟨build_c6text, ?_, ?_, ?_⟩
  · rw [hchildren]
    simpa using hblne
  · obtain ⟨b0, brest, hbl⟩ := List.exists_cons_of_ne_nil hblne
    have hb0mem : b0 ∈ buildLevel c6text 0 0 := by
      rw [hbl]
      exact List.mem_cons_self _ _
    have hb0facts := (buildLevel_master 0 (by omega) c6text c6text_ne 0).2 b0 hb0mem
    have hb0sub : ∀ x ∈ treeNodes b0, x.embedding = none ∧ x.centroid = none :=
      fun x hx => buildLevel_allNone 0 c6text 0 b0 hb0mem x hx
    have hb0leafs : ∀ ℓ ∈ treeNodes b0, ℓ.children = [] →
        (ℓ.text ≠ [] ∧ 10 ≤ ℓ.text.length) ∧
        ∃ v, getEmbedding pOne ℓ.text = some v ∧ v ≠ [] := by
      intro ℓ hℓ hlf
      have hbd := buildLevel_leaf_bound 0 (by omega) c6text 0 c6text_ne
        (by rw [c6text_len]; rfl) b0 hb0mem ℓ hℓ hlf
      refine pOne_leaf_facts ℓ ?_ (by omega)
      rw [← List.length_pos]
      omega
    have hpres := embedNode_present pOne b0 hb0sub hb0leafs
    have hok := embedNode_ok pOne b0 hb0sub _ (self_mem_treeNodes _)
    have hb0ch : b0.children ≠ [] := ((hb0facts.2.2.2.1) (by omega)).2
    have hr0ch : (embedNode pOne b0).1.children ≠ [] := by
      rw [embedNode_children]
      simpa using hb0ch
    obtain ⟨v, hv, hvne⟩ := hpres.2 hr0ch
    rw [hchildren, hbl, List.map_cons]
    rw [specElig, List.filterMap_cons]
    have hembnone : (embedNode pOne b0).1.embedding = none := hok.2 hr0ch
    rw [hembnone, hv]
    simp
  · rw [hcomp.2.2.2.2.2.1, c6root_form]
    rfl

/-- Witness for C6 (amended) at the concrete 144-character input. -/
theorem c6_centroids_witness :
    (embedTree pOne c6root).1.centroid = none ∧
    (∀ c ∈ (embedTree pOne c6root).1.children, ∀ m ∈ treeNodes c,
      m.children ≠ [] → m.centroid = centroidSpec m.children) := by
  have h := c6_centroids pOne 1 c6text c6root
    (fun s v hv => by injection hv with h2; rw [← h2]; rfl)
    (by omega) build_c6text
  exact ⟨h.2, h.1⟩

/-! ## C10: leaves of a tree built from 144+ characters -/

/-- C10: for input of at least 144 characters, every leaf of the built tree
is a level-4 node whose text is strictly longer than 14 characters (the
level-4 overlap) — hence above the 10-character embedding threshold — and
when the provider succeeds with a truthy vector on every leaf text, the
count returned by `embed_tree` equals the leaf count. -/
theorem c10_leaf_threshold (p : Provider) (text : List Char) (root : FractalNode)
    (h144 : 144 ≤ text.length) (hb : buildFractalTree text = some root) :
    (∀ ℓ ∈ get_leaves root, ℓ.level = 4 ∧ 14 < ℓ.text.length) ∧
    ((∀ ℓ ∈ get_leaves root, ∃ v, getEmbedding p ℓ.text = some v ∧ v ≠ []) →
      (embedTree p root).2 = (get_leaves root).length) := by
  obtain ⟨h0, hcase⟩ := build_root_cases text root hb
  rcases hcase with ⟨h1, rfl⟩ | ⟨h1, rfl⟩
  · omega
  · have hchne : (FractalNode.mk (-1) [] 0 text.length none none
        (buildLevel text 0 0)).children ≠ [] := by
      simp only [FractalNode.children]
      exact (buildLevel_master 0 (by omega) text h0 0).1
    have hgl := get_leaves_node hchne
    simp only [FractalNode.children] at hgl
    have hbound : ∀ ℓ ∈ get_leaves (FractalNode.mk (-1) [] 0 text.length none none
        (buildLevel text 0 0)), ℓ.level = 4 ∧ 15 ≤ ℓ.text.length := by
      intro ℓ hℓ
      rw [hgl] at hℓ
      obtain ⟨l, hl, hℓl⟩ := List.mem_flatten.mp hℓ
      obtain ⟨n, hn, rfl⟩ := List.mem_map.mp hl
      obtain ⟨htn, hch⟩ := get_leaves_sub n ℓ hℓl
      exact buildLevel_leaf_bound 0 (by omega) text 0 h0 h144 n hn ℓ htn hch
    constructor
    · intro ℓ hℓ
      obtain ⟨hlv, hlen⟩ := hbound ℓ hℓ
      exact ⟨hlv, by omega⟩
    · intro hprov
      rw [(embedTree_components p (FractalNode.mk (-1) [] 0 text.length none none
        (buildLevel text 0 0))).2.2.2.2.2.2.2]
      simp only [FractalNode.children]
      rw [hgl, List.length_flatten, List.map_map]
      refine congrArg List.sum (List.map_congr_left (fun c hc => ?_))
      refine embedNode_count p c (fun ℓ hℓ => ?_)
      have hmem : ℓ ∈ get_leaves (FractalNode.mk (-1) [] 0 text.length none none
          (buildLevel text 0 0)) := by
        rw [hgl]
        exact List.mem_flatten.mpr ⟨get_leaves c, List.mem_map_of_mem _ hc, hℓ⟩
      obtain ⟨hlv, hlen⟩ := hbound ℓ hmem
      obtain ⟨v, hv, hvne⟩ := hprov ℓ hmem
      refine ⟨⟨?_, by omega⟩, ?_⟩
      · rw [← List.length_pos]
        omega
      · cases v with
        | nil => exact absurd rfl hvne
        | cons x xs =>
          rw [hv]
          rfl

/-- Witness for C10 at the concrete 144-character input with a provider
that always returns the vector [1]. -/
theorem c10_leaf_threshold_witness :
    (embedTree pOne c6root).2 = (get_leaves c6root).length :=
  (c10_leaf_threshold pOne c6text c6root (by rw [c6text_len]) build_c6text).2
    (fun ℓ _ => ⟨[(1:ℝ)], rfl, by simp⟩)

/-! ## C5: five-level sliding-window structure -/

/-- From the spec's words: a node list is the sliding-window chunking of a
span when its (start, stop, text) triples are exactly the windows of the
level's size advancing by size − overlap, all but the last ending before
the span's end, the last reaching it (a shorter final window included). -/
def ChildrenAreWindows (s : List Char) (off : Nat) (L : Nat)
    (cs : List FractalNode) : Prop :=
  ∃ m, cs.map (fun c => (c.start, c.stop, c.text))
      = (List.range (m + 1)).map (fun k =>
          (off + k * (sizeAt L - overlapAt L),
           off + min (k * (sizeAt L - overlapAt L) + sizeAt L) s.length,
           (s.drop (k * (sizeAt L - overlapAt L))).take (sizeAt L)))
    ∧ (∀ k < m, k * (sizeAt L - overlapAt L) + sizeAt L < s.length)
    ∧ s.length ≤ m * (sizeAt L - overlapAt L) + sizeAt L
    ∧ (∀ k ≤ m, k * (sizeAt L - overlapAt L) < s.length)

theorem buildLevel_windows (L : Nat) (hL : L ≤ 4) (s : List Char) (hs : s ≠ [])
    (off : Nat) : ChildrenAreWindows s off L (buildLevel s off L) := by
  have h5 : ¬ 5 ≤ L := by omega
  have hov := ov_lt_size L hL
  obtain ⟨m, heq, h1, h2, h3⟩ := chunk_text_windows s (sizeAt L) (overlapAt L) hs hov
  refine ⟨m, ?_, h1, h2, h3⟩
  rw [buildLevel, dif_neg h5, List.map_map, heq, List.map_map]
  refine List.map_congr_left (fun k hk => ?_)
  rfl

theorem buildLevel_shape (L : Nat) (hL : L ≤ 4) (s : List Char) (hs : s ≠ [])
    (off : Nat) :
    ∀ n ∈ buildLevel s off L, ∀ m ∈ treeNodes n,
      (0 ≤ m.level ∧ m.level ≤ 4) ∧
      (m.level = 4 → m.children = []) ∧
      (m.level < 4 → m.children ≠ [] ∧
        ChildrenAreWindows m.text m.start (m.level.toNat + 1) m.children ∧
        ∀ c ∈ m.children, c.level = m.level + 1) := by
  intro n hn m hm
  have hmaster := (buildLevel_master L hL s hs off).2 n hn
  obtain ⟨hlv, htne, hlen, hlt4, heq4⟩ := hmaster
  rcases mem_treeNodes_cases hm with rfl | ⟨c, hc, hmc⟩
  · refine ⟨by rw [hlv]; constructor <;> omega, ?_, ?_⟩
    · intro h4
      have hL4 : L = 4 := by
        rw [hlv] at h4
        omega
      exact heq4 hL4
    · intro h4
      have hL4 : L < 4 := by
        rw [hlv] at h4
        omega
      obtain ⟨hcheq, hchne⟩ := hlt4 hL4
      refine ⟨hchne, ?_, ?_⟩
      · rw [hcheq]
        have htn : m.level.toNat + 1 = L + 1 := by
          rw [hlv]
          simp
        rw [htn]
        exact buildLevel_windows (L + 1) (by omega) m.text htne m.start
      · intro c hc
        rw [hcheq] at hc
        have hcl := ((buildLevel_master (L + 1) (by omega) m.text htne m.start).2 c hc).1
        rw [hcl, hlv]
        omega
  · by_cases h4 : L < 4
    · obtain ⟨hcheq, _⟩ := hlt4 h4
      rw [hcheq] at hc
      exact buildLevel_shape (L + 1) (by omega) n.text htne n.start c hc m hmc
    · have hL4 : L = 4 := by omega
      rw [heq4 hL4] at hc
      simp at hc
termination_by 5 - L

theorem buildLevel_exists_level (L : Nat) (hL : L ≤ 4) (s : List Char) (hs : s ≠ [])
    (off : Nat) :
    ∀ j : Nat, L ≤ j → j ≤ 4 →
    ∃ n ∈ buildLevel s off L, ∃ m ∈ treeNodes n, m.level = (j : Int) := by
  intro j hj1 hj2
  have hne := (buildLevel_master L hL s hs off).1
  obtain ⟨n0, hn0⟩ := List.exists_mem_of_ne_nil _ hne
  have hmaster := (buildLevel_master L hL s hs off).2 n0 hn0
  by_cases hLj : L = j
  · subst hLj
    exact ⟨n0, hn0, n0, self_mem_treeNodes n0, hmaster.1⟩
  · have hL4 : L < 4 := by omega
    obtain ⟨hcheq, _⟩ := hmaster.2.2.2.1 hL4
    obtain ⟨n1, hn1, m, hm, hlv⟩ :=
      buildLevel_exists_level (L + 1) (by omega) n0.text hmaster.2.1 n0.start j
        (by omega) hj2
    refine ⟨n0, hn0, m, ?_, hlv⟩
    refine mem_treeNodes_trans ?_ hm
    rw [hcheq]
    exact hn1
termination_by 4 - L

/-- C5: for input of at least 987 characters, `build_fractal_tree` returns a
synthetic level −1 root; every node below it has a level in 0..4 and all
five levels are inhabited; the children of the root (and of every internal
node) are exactly the sliding windows of the corresponding level's size
advancing by size − overlap over that node's own text, with a final shorter
window reaching the end; and level-4 nodes have no children. -/
theorem c5_tree_structure (text : List Char) (h987 : 987 ≤ text.length) :
    buildFractalTree text = some (rootOf text) ∧
    (rootOf text).level = -1 ∧
    (rootOf text).children ≠ [] ∧
    ChildrenAreWindows text 0 0 (rootOf text).children ∧
    (∀ c ∈ (rootOf text).children, ∀ m ∈ treeNodes c,
      (0 ≤ m.level ∧ m.level ≤ 4) ∧
      (m.level = 4 → m.children = []) ∧
      (m.level < 4 → m.children ≠ [] ∧
        ChildrenAreWindows m.text m.start (m.level.toNat + 1) m.children ∧
        ∀ c' ∈ m.children, c'.level = m.level + 1)) ∧
    (∀ j : Int, 0 ≤ j → j ≤ 4 →
      ∃ c ∈ (rootOf text).children, ∃ m ∈ treeNodes c, m.level = j) := by
  have h0 : text ≠ [] := by
    intro h
    rw [h] at h987
    simp at h987
  have hb := buildFractalTree_eq_rootOf h0
  obtain ⟨_, hcase⟩ := build_root_cases text (rootOf text) hb
  rcases hcase with ⟨h1, _⟩ | ⟨h1, hform⟩
  · omega
  · refine ⟨hb, by rw [hform]; rfl, ?_, ?_, ?_, ?_⟩
    · rw [hform]
      simp only [FractalNode.children]
      exact (buildLevel_master 0 (by omega) text h0 0).1
    · rw [hform]
      simp only [FractalNode.children]
      exact buildLevel_windows 0 (by omega) text h0 0
    · rw [hform]
      simp only [FractalNode.children]
      exact buildLevel_shape 0 (by omega) text h0 0
    · intro j hj0 hj4
      obtain ⟨n, hn, m, hm, hlv⟩ :=
        buildLevel_exists_level 0 (by omega) text h0 0 j.toNat (by omega) (by omega)
      refine ⟨n, ?_, m, hm, ?_⟩
      · rw [hform]
        simp only [FractalNode.children]
        exact hn
      · rw [hlv]
        omega

def c5text : List Char := List.replicate 987 'a'

/-- Witness for C5 at a concrete 987-character input. -/
theorem c5_tree_structure_witness :
    buildFractalTree c5text = some (rootOf c5text) ∧
    (rootOf c5text).level = -1 ∧ (rootOf c5text).children ≠ [] := by
  have h := c5_tree_structure c5text (by rw [c5text, List.length_replicate])
  exact ⟨h.1, h.2.1, h.2.2.1⟩
